import Mathlib

/-!
# Verification of `h_utils.py`

A shallow embedding of the single source file `h_utils.py` of the
`my_utils` repository, together with theorems settling the claims that
the specification makes about it.  The two functions the claims touch are:

* `expand_tn` — expands a Cisco-style telephone-number pattern into the
  list of concrete numbers it denotes.  The Python source tokenizes the
  pattern with `re.finditer` over the regex
  `\[([0-9])-([0-9])\]|(X)|([0-9])`, builds a `list(range(start, stop))`
  per recognized token, and yields the digit-string concatenation of each
  member of `itertools.product(*ranges)`.
* `ip_in_range` / `ip_version` — membership of an IP address in a network,
  with string inputs routed through `ipaddress.IPv4Network` /
  `ipaddress.IPv6Network` parsing.

The lazy generator of Python is embedded as the finite list of its yields; the
generator-object view is modelled separately by `GenState`.
-/

namespace HUtils

/-! ## Telephone-number pattern expansion: data model -/

/-- A token recognized by the regex `\[([0-9])-([0-9])\]|(X)|([0-9])`:
a bracketed range `[a-b]`, the wildcard `X`, or a literal digit. -/
inductive Tok where
  | rng (a b : Nat)
  | wild
  | lit (d : Nat)
deriving DecidableEq, Repr

/-- Numeric value of a decimal digit character (Python `int(c)` for a
one-character string matched by `[0-9]`). -/
def digitVal (c : Char) : Nat := c.toNat - 48

/-- Python `list(range(start, stop))`: the naturals from `start`
(inclusive) to `stop` (exclusive); empty when `stop ≤ start`. -/
def pyRange (start stop : Nat) : List Nat := List.range' start (stop - start)

/-- Left-to-right scan of the pattern, embedding `re.finditer` with the
regex `\[([0-9])-([0-9])\]|(X)|([0-9])`: at each position the engine first
tries the five-character bracket alternative, then `X`, then a single
digit; when no alternative matches the engine moves one character to the
right, so the character is skipped.  A failed bracket attempt (`[` not
followed by `digit - digit ]`) likewise just skips the `[`, since `[` is
neither `X` nor a digit. -/
def scanToks : List Char → List Tok
  | [] => []
  | '[' :: a :: '-' :: b :: ']' :: cs =>
      if a.isDigit && b.isDigit then
        Tok.rng (digitVal a) (digitVal b) :: scanToks cs
      else
        scanToks (a :: '-' :: b :: ']' :: cs)
  | c :: cs =>
      if c = 'X' then Tok.wild :: scanToks cs
      else if c.isDigit then Tok.lit (digitVal c) :: scanToks cs
      else scanToks cs

/-- The digit list the source builds for one token: `list(range(start,
stop))` with `start` and `stop` as computed in the loop body of `expand_tn`. -/
def tokSet : Tok → List Nat
  | Tok.rng a b => pyRange a (b + 1)
  | Tok.wild => pyRange 0 10
  | Tok.lit d => pyRange d (d + 1)

/-- The `ranges` list built by the tokenization loop of `expand_tn`. -/
def ranges (tn : String) : List (List Nat) :=
  (scanToks tn.toList).map tokSet

/-- Embedding of `itertools.product(*ranges)`: all choice lists, leftmost position
outermost (varying slowest), exactly as nested `for` loops. -/
def cartProd : List (List Nat) → List (List Nat)
  | [] => [[]]
  | r :: rs => r.flatMap (fun d => (cartProd rs).map (fun tl => d :: tl))

/-- The string built from one product element by the loop
`single_expanded_number += f"{xx}"`. -/
def strOfDigits (x : List Nat) : String :=
  x.foldl (fun s d => s ++ Nat.repr d) ""

/-- The function `expand_tn`, with the generator embedded as the list of its yields. -/
def expand_tn (tn : String) : List String :=
  (cartProd (ranges tn)).map strOfDigits

/-! ## Generator-object view of `expand_tn`

The Python function is a generator: calling it performs no work, and each
`next` either yields the string of the next product element or signals
exhaustion.  The state is the remaining part of the product sequence. -/

/-- State of one `expand_tn(tn)` generator object: the combinations not
yet yielded. -/
structure GenState where
  pending : List (List Nat)
deriving DecidableEq, Repr

/-- A fresh generator object for pattern `tn`. -/
def mkGen (tn : String) : GenState := ⟨cartProd (ranges tn)⟩

/-- One `next()` call: `none` models `StopIteration`. -/
def genStep : GenState → Option (String × GenState)
  | ⟨[]⟩ => none
  | ⟨x :: rest⟩ => some (strOfDigits x, ⟨rest⟩)

/-- The strings yielded, in order, when the remaining combinations are
`l`. -/
def genRunList : List (List Nat) → List String
  | [] => []
  | x :: rest => strOfDigits x :: genRunList rest

/-- All values a generator state will ever yield, in order. -/
def genOutputs (g : GenState) : List String := genRunList g.pending

/-! ## A fallible rendering of the tokenization loop

The loop body of `expand_tn` converts captured groups with Python `int`, which
raises `ValueError` on a non-numeric string.  To state that no such error
can occur, `scanToksE` re-renders the scan with the conversion made
fallible (`pyInt`), propagating failure; `scanToksE_eq_some` below shows
it never fails and agrees with `scanToks`. -/

/-- Python `int` on a one-character string: fails unless the character is
a decimal digit. -/
def pyInt (c : Char) : Option Nat :=
  if c.isDigit then some (digitVal c) else none

/-- The tokenization loop with `int` conversions that can fail. -/
def scanToksE : List Char → Option (List Tok)
  | [] => some []
  | '[' :: a :: '-' :: b :: ']' :: cs =>
      if a.isDigit && b.isDigit then
        (pyInt a).bind fun x =>
          (pyInt b).bind fun y =>
            (scanToksE cs).map fun ts => Tok.rng x y :: ts
      else
        scanToksE (a :: '-' :: b :: ']' :: cs)
  | c :: cs =>
      if c = 'X' then (scanToksE cs).map fun ts => Tok.wild :: ts
      else if c.isDigit then
        (pyInt c).bind fun x => (scanToksE cs).map fun ts => Tok.lit x :: ts
      else scanToksE cs

/-! ## Spec-side definitions for the claims about `expand_tn` -/

/-- The digit-set cardinality the spec ascribes to each token: 1 for a
literal, 10 for `X`, and `b + 1 - a` for `[a-b]` (the `b - a + 1` of the spec,
read over the integers and clamped at zero). -/
def tokCard : Tok → Nat
  | Tok.rng a b => b + 1 - a
  | Tok.wild => 10
  | Tok.lit _ => 1

/-- Modelled from the odometer description of the product order in the spec:
the combination at index `i` of the product of `r :: rs` picks
`r[i / m]` first, where `m` is the size of the product of `rs`, and
recurses at `i % m` — so the leftmost position varies slowest and the
last position varies fastest. -/
def prodNth : List (List Nat) → Nat → Option (List Nat)
  | [], 0 => some []
  | [], _ + 1 => none
  | r :: rs, i =>
      (r[i / ((rs.map List.length).prod)]?).bind fun d =>
        (prodNth rs (i % ((rs.map List.length).prod))).map fun tl => d :: tl

/-! ## IP membership: data model

The `ipaddress` standard-library values `ip_in_range` manipulates are
embedded by their mathematical content: an address is its integer value,
a network is its (already masked) network address together with its
prefix length.  A Python *string* argument is abstracted by the outcome
of parsing it with `ipaddress.IPv4Network` then `ipaddress.IPv6Network`,
which is exactly how `ip_version` consumes it: `IPStr.v4s a p` stands for
the strings the first constructor accepts (as network `a/p`),
`IPStr.v6s a p` for those only the second accepts, and `IPStr.bad` for
strings rejected by both (including those with host bits set, which both
constructors reject). -/

/-- A string argument, classified by its `ipaddress` parse outcome. -/
inductive IPStr where
  | v4s (a p : Nat)
  | v6s (a p : Nat)
  | bad
deriving DecidableEq, Repr

/-- A Python value flowing through `ip_in_range`: IPv4/IPv6 address
objects, IPv4/IPv6 network objects, strings, or `None`. -/
inductive PyVal where
  | addr4 (a : Nat)
  | addr6 (a : Nat)
  | net4 (a p : Nat)
  | net6 (a p : Nat)
  | str (s : IPStr)
  | pynone
deriving DecidableEq, Repr

/-- Embedding of `ip_version`: try `IPv4Network(ip)`, then `IPv6Network(ip)`, else
`None`. -/
def ip_version : IPStr → PyVal
  | IPStr.v4s a p => PyVal.net4 a p
  | IPStr.v6s a p => PyVal.net6 a p
  | IPStr.bad => PyVal.pynone

/-- Value of `int(range.netmask)` for an IPv4 network of prefix length `p`. -/
def netmask4 (p : Nat) : Nat := 2 ^ 32 - 2 ^ (32 - p)

/-- Value of `int(range.netmask)` for an IPv6 network of prefix length `p`. -/
def netmask6 (p : Nat) : Nat := 2 ^ 128 - 2 ^ (128 - p)

/-- Embedding of `ip_in_range`.  String `ip` arguments go through `ip_version`; the
resulting value gets its `.prefixlen` read (an `AttributeError` when `ip_version`
returned `None`), and only when it equals 32 is the network replaced by
its first address `ip[0]`, i.e. its network address.  String `range`
arguments go through `ip_version` unconditionally.  The membership test
runs only when `ip` ended up an address object and `range` a network
object of the same version; every other combination returns `None`. -/
def ip_in_range (ip range : PyVal) : Except String (Option Bool) := do
  let ip2 ← match ip with
    | PyVal.str s =>
        match ip_version s with
        | PyVal.net4 a p => pure (if p = 32 then PyVal.addr4 a else PyVal.net4 a p)
        | PyVal.net6 a p => pure (if p = 32 then PyVal.addr6 a else PyVal.net6 a p)
        | _ => throw "AttributeError: NoneType has no attribute prefixlen"
    | v => pure v
  let range2 := match range with
    | PyVal.str s => ip_version s
    | v => v
  match ip2, range2 with
  | PyVal.addr4 a, PyVal.net4 na p => pure (some (decide (a &&& netmask4 p = na)))
  | PyVal.addr6 a, PyVal.net6 na p => pure (some (decide (a &&& netmask6 p = na)))
  | _, _ => pure none

/-- The IPv6 address `2001:db8::` as an integer. -/
def dbAddr : Nat := 0x20010db8 * 2 ^ 96

/-! ## Basic lemmas about the digit lists -/

theorem length_pyRange (s t : Nat) : (pyRange s t).length = t - s := by
  simp [pyRange]

theorem mem_pyRange {d s t : Nat} : d ∈ pyRange s t ↔ s ≤ d ∧ d < t := by
  rw [pyRange, List.mem_range']
  constructor
  · rintro ⟨i, hi, rfl⟩
    omega
  · intro h
    exact ⟨d - s, by omega, by omega⟩

theorem tokCard_eq_length (t : Tok) : tokCard t = (tokSet t).length := by
  cases t <;> simp [tokCard, tokSet, length_pyRange]

/-! ## Lemmas about the Cartesian product -/

theorem length_cartProd (rs : List (List Nat)) :
    (cartProd rs).length = (rs.map List.length).prod := by
  induction rs with
  | nil => rfl
  | cons r rs ih =>
      simp only [cartProd, List.length_flatMap, Function.comp_def, List.length_map, ih,
        List.map_const', List.sum_replicate, smul_eq_mul, List.map_cons, List.prod_cons]

theorem mem_cartProd {x : List Nat} {rs : List (List Nat)} :
    x ∈ cartProd rs ↔ List.Forall₂ (fun d r => d ∈ r) x rs := by
  induction rs generalizing x with
  | nil => simp [cartProd, List.forall₂_nil_right_iff]
  | cons r rs ih =>
      simp only [cartProd, List.mem_flatMap, List.mem_map, List.forall₂_cons_right_iff, ih]
      constructor
      · rintro ⟨d, hd, tl, htl, rfl⟩
        exact ⟨d, tl, hd, htl, rfl⟩
      · rintro ⟨d, tl, hd, htl, rfl⟩
        exact ⟨d, hd, tl, htl, rfl⟩

theorem cartProd_eq_nil {rs : List (List Nat)} (h : [] ∈ rs) : cartProd rs = [] := by
  induction rs with
  | nil => cases h
  | cons r rs ih =>
      rcases List.mem_cons.mp h with h | h
      · simp [cartProd, ← h]
      · simp [cartProd, ih h]

/-- Indexing into a `flatMap` whose blocks all have length `m`: block
`i / m`, offset `i % m`. -/
theorem getElem?_flatMap_const {α β : Type} (r : List α) (f : α → List β) (m : Nat)
    (hm : 0 < m) (hf : ∀ a, (f a).length = m) (i : Nat) :
    (r.flatMap f)[i]? = (r[i / m]?).bind fun a => (f a)[i % m]? := by
  induction r generalizing i with
  | nil => simp
  | cons a r ih =>
      rw [List.flatMap_cons, List.getElem?_append, hf a]
      by_cases h : i < m
      · rw [if_pos h, Nat.div_eq_of_lt h, Nat.mod_eq_of_lt h]
        simp
      · rw [if_neg h, ih (i - m),
          show i / m = (i - m) / m + 1 from Nat.div_eq_sub_div hm (by omega),
          show i % m = (i - m) % m from Nat.mod_eq_sub_mod (by omega),
          List.getElem?_cons_succ]

/-- The `i`-th element of the embedded `itertools.product` is exactly the
odometer combination of the spec at index `i`. -/
theorem getElem?_cartProd (rs : List (List Nat)) (i : Nat) :
    (cartProd rs)[i]? = prodNth rs i := by
  induction rs generalizing i with
  | nil => cases i <;> rfl
  | cons r rs ih =>
      rcases Nat.eq_zero_or_pos ((rs.map List.length).prod) with h0 | hpos
      · have hnil : cartProd rs = [] :=
          List.length_eq_zero.mp (by rw [length_cartProd, h0])
        have hn : ∀ j, prodNth rs j = none := fun j => by
          rw [← ih j, hnil]
          rfl
        have hflat : r.flatMap (fun d => (cartProd rs).map (fun tl => d :: tl)) = [] := by
          rw [hnil]
          simp
        rw [cartProd, prodNth, hflat, hn]
        cases r[i / (rs.map List.length).prod]? <;> simp
      · rw [cartProd, prodNth,
          getElem?_flatMap_const r _ ((rs.map List.length).prod) hpos
            (fun a => by rw [List.length_map, length_cartProd]) i]
        cases r[i / (rs.map List.length).prod]? with
        | none => rfl
        | some d => simp [List.getElem?_map, ih]

/-! ## Lemmas about the digit-string rendering -/

theorem foldl_append_repr (x : List Nat) (s : String) :
    (x.foldl (fun s d => s ++ Nat.repr d) s).data
      = s.data ++ (x.map fun d => (Nat.repr d).data).flatten := by
  induction x generalizing s with
  | nil => simp
  | cons d x ih => simp [ih, String.data_append]

theorem repr_digit_data {d : Nat} (h : d < 10) :
    (Nat.repr d).data = [Char.ofNat (48 + d)] := by
  interval_cases d <;> rfl

theorem flatten_repr_digits {x : List Nat} (h : ∀ d ∈ x, d < 10) :
    (x.map fun d => (Nat.repr d).data).flatten = x.map fun d => Char.ofNat (48 + d) := by
  induction x with
  | nil => rfl
  | cons d x ih =>
      rw [List.map_cons, List.flatten_cons, repr_digit_data (h d (List.mem_cons_self d x)),
        ih fun e he => h e (List.mem_cons_of_mem d he), List.map_cons]
      rfl

theorem strOfDigits_data {x : List Nat} (h : ∀ d ∈ x, d < 10) :
    (strOfDigits x).data = x.map fun d => Char.ofNat (48 + d) := by
  rw [strOfDigits, foldl_append_repr, flatten_repr_digits h]
  rfl

theorem strOfDigits_length {x : List Nat} (h : ∀ d ∈ x, d < 10) :
    (strOfDigits x).length = x.length := by
  rw [String.length, strOfDigits_data h, List.length_map]

/-! ## Bounds coming from the digit characters -/

theorem toNat_of_isDigit {c : Char} (h : c.isDigit = true) :
    48 ≤ c.toNat ∧ c.toNat ≤ 57 := by
  simp only [Char.isDigit, ge_iff_le, Bool.and_eq_true, decide_eq_true_eq] at h
  exact ⟨h.1, h.2⟩

theorem digitVal_le_nine {c : Char} (h : c.isDigit = true) : digitVal c ≤ 9 := by
  have := toNat_of_isDigit h
  rw [digitVal]
  omega

theorem ne_lbracket_of_isDigit {c : Char} (h : c.isDigit = true) : c ≠ '[' := by
  intro hc
  subst hc
  exact absurd h (by decide)

theorem ne_X_of_isDigit {c : Char} (h : c.isDigit = true) : c ≠ 'X' := by
  intro hc
  subst hc
  exact absurd h (by decide)

/-! ## Invariants of the token scan -/

/-- Every parameter stored in a recognized token is a single decimal
digit value. -/
def tokOK : Tok → Prop
  | Tok.rng a b => a ≤ 9 ∧ b ≤ 9
  | Tok.wild => True
  | Tok.lit d => d ≤ 9

theorem scanToks_ok (l : List Char) : ∀ t ∈ scanToks l, tokOK t := by
  induction l using scanToks.induct with
  | case1 => intro t ht; cases ht
  | case2 a b rest hab ih =>
      intro t ht
      rw [show scanToks ('[' :: a :: '-' :: b :: ']' :: rest)
            = Tok.rng (digitVal a) (digitVal b) :: scanToks rest by
          simp only [scanToks, if_pos hab]] at ht
      have hab' : a.isDigit = true ∧ b.isDigit = true := by
        simpa [Bool.and_eq_true] using hab
      rcases List.mem_cons.mp ht with h | h
      · subst h
        exact ⟨digitVal_le_nine hab'.1, digitVal_le_nine hab'.2⟩
      · exact ih t h
  | case3 a b rest hab ih =>
      intro t ht
      rw [show scanToks ('[' :: a :: '-' :: b :: ']' :: rest)
            = scanToks (a :: '-' :: b :: ']' :: rest) by
          simp only [scanToks, if_neg hab]] at ht
      exact ih t ht
  | case4 rest hne ih =>
      intro t ht
      rcases List.mem_cons.mp ht with h | h
      · subst h; trivial
      · exact ih t h
  | case5 c rest hne hX hd ih =>
      intro t ht
      rw [scanToks.eq_3 c rest hne, if_neg hX, if_pos hd] at ht
      rcases List.mem_cons.mp ht with h | h
      · subst h; exact digitVal_le_nine hd
      · exact ih t h
  | case6 c rest hne hX hd ih =>
      intro t ht
      rw [scanToks.eq_3 c rest hne, if_neg hX, if_neg hd] at ht
      exact ih t ht

theorem tokSet_lt_ten {t : Tok} (h : tokOK t) : ∀ d ∈ tokSet t, d < 10 := by
  cases t with
  | rng a b =>
      intro d hd
      simp only [tokSet] at hd
      rw [mem_pyRange] at hd
      simp only [tokOK] at h
      omega
  | wild =>
      intro d hd
      simp only [tokSet] at hd
      rw [mem_pyRange] at hd
      omega
  | lit e =>
      intro d hd
      simp only [tokSet] at hd
      rw [mem_pyRange] at hd
      simp only [tokOK] at h
      omega

theorem ranges_lt_ten (tn : String) : ∀ r ∈ ranges tn, ∀ d ∈ r, d < 10 := by
  intro r hr
  rw [ranges] at hr
  rcases List.mem_map.mp hr with ⟨t, ht, rfl⟩
  exact tokSet_lt_ten (scanToks_ok tn.toList t ht)

/-- The fallible rendering of the tokenization loop never fails and
agrees with the total one. -/
theorem scanToksE_eq_some (l : List Char) : scanToksE l = some (scanToks l) := by
  induction l using scanToksE.induct with
  | case1 => rfl
  | case2 a b rest hab ih =>
      have hab' : a.isDigit = true ∧ b.isDigit = true := by
        simpa [Bool.and_eq_true] using hab
      simp [scanToksE, scanToks, hab, hab'.1, hab'.2, pyInt, ih]
  | case3 a b rest hab ih =>
      simp only [scanToksE, scanToks, if_neg hab]
      exact ih
  | case4 rest hne ih =>
      rw [show scanToksE ('X' :: rest)
            = (scanToksE rest).map (fun ts => Tok.wild :: ts) from rfl, ih]
      rfl
  | case5 c rest hne hX hd ih =>
      rw [scanToksE.eq_3 c rest hne, scanToks.eq_3 c rest hne,
        if_neg hX, if_neg hX, if_pos hd, if_pos hd, ih]
      simp [pyInt, hd]
  | case6 c rest hne hX hd ih =>
      rw [scanToksE.eq_3 c rest hne, scanToks.eq_3 c rest hne,
        if_neg hX, if_neg hX, if_neg hd, if_neg hd]
      exact ih

/-! ## The generator view -/

theorem genOutputs_mk (l : List (List Nat)) :
    genOutputs ⟨l⟩ = l.map strOfDigits := by
  rw [genOutputs]
  induction l with
  | nil => rfl
  | cons x rest ih => rw [genRunList, ih, List.map_cons]

/-! ## The count of expanded numbers -/

theorem expand_tn_length (tn : String) :
    (expand_tn tn).length = ((scanToks tn.toList).map tokCard).prod := by
  rw [expand_tn, List.length_map, length_cartProd, ranges, List.map_map]
  have : List.length ∘ tokSet = tokCard := funext fun t => (tokCard_eq_length t).symm
  rw [this]

/-- Membership projection of a pointwise `Forall₂`. -/
theorem forall₂_mem_left {x : List Nat} {rs : List (List Nat)}
    (h : List.Forall₂ (fun d r => d ∈ r) x rs) : ∀ d ∈ x, ∃ r ∈ rs, d ∈ r := by
  induction h with
  | nil => intro d hd; cases hd
  | cons hdr htl ih =>
      intro d hd
      rcases List.mem_cons.mp hd with h | h
      · subst h
        exact ⟨_, List.mem_cons_self _ _, hdr⟩
      · rcases ih d h with ⟨r, hr, hdr2⟩
        exact ⟨r, List.mem_cons_of_mem _ hr, hdr2⟩

/-! ## The claims -/

/-- Claim C1: for the pattern `"1316555101[0-9]"`, `expand_tn` yields
exactly the ten strings `"13165551010"` … `"13165551019"` in ascending
numeric order, and for `"131655510XX"` exactly the 100 strings
`"13165551000"` … `"13165551099"` in ascending order. -/
theorem c1_example_patterns :
    expand_tn "1316555101[0-9]"
      = (List.range 10).map (fun n => Nat.repr (13165551010 + n))
  ∧ expand_tn "131655510XX"
      = (List.range 100).map (fun n => Nat.repr (13165551000 + n)) := by
  constructor <;> rfl

/-- Claim C2: the number of strings yielded equals the product of the
digit-set cardinalities of the recognized tokens — 1 for a literal, 10 for `X`,
`b - a + 1` for `[a-b]` — so in particular the sequence is finite. -/
theorem c2_count_product (tn : String) :
    (expand_tn tn).length = ((scanToks tn.toList).map tokCard).prod
  ∧ (∀ d, tokCard (Tok.lit d) = 1)
  ∧ tokCard Tok.wild = 10
  ∧ (∀ a b, tokCard (Tok.rng a b) = b + 1 - a) :=
  ⟨expand_tn_length tn, fun _ => rfl, rfl, fun _ _ => rfl⟩

/-- Claim C3: `expand_tn` enumerates the Cartesian product of the
per-token digit-sets in recognition order, the leftmost token varying
slowest and the last position fastest: the `i`-th yield is the odometer
combination at index `i`. -/
theorem c3_product_order (tn : String) (i : Nat) :
    (expand_tn tn)[i]? = (prodNth (ranges tn) i).map strOfDigits := by
  rw [expand_tn, List.getElem?_map, getElem?_cartProd]

/-- Claim C4: the scan recognizes, in priority order, a bracketed range
`[digit-digit]`, the wildcard `X`, and a literal digit; any character
matching no alternative (including a `[` that opens no valid bracket) is
skipped without error and contributes no token; the digit-sets are `{d}`,
`{0,…,9}` and `{a,…,b}` respectively. -/
theorem c4_tokenization :
    (∀ a b cs, a.isDigit = true → b.isDigit = true →
       scanToks ('[' :: a :: '-' :: b :: ']' :: cs)
         = Tok.rng (digitVal a) (digitVal b) :: scanToks cs)
  ∧ (∀ cs, scanToks ('X' :: cs) = Tok.wild :: scanToks cs)
  ∧ (∀ c cs, c.isDigit = true →
       scanToks (c :: cs) = Tok.lit (digitVal c) :: scanToks cs)
  ∧ (∀ c cs, c ≠ '[' → c ≠ 'X' → c.isDigit = false →
       scanToks (c :: cs) = scanToks cs)
  ∧ (∀ a b cs, (a.isDigit && b.isDigit) = false →
       scanToks ('[' :: a :: '-' :: b :: ']' :: cs)
         = scanToks (a :: '-' :: b :: ']' :: cs))
  ∧ (∀ d, tokSet (Tok.lit d) = [d])
  ∧ (∀ d, d ∈ tokSet Tok.wild ↔ d ≤ 9)
  ∧ (∀ a b d, d ∈ tokSet (Tok.rng a b) ↔ a ≤ d ∧ d ≤ b) := by
  refine ⟨?_, ?_, ?_, ?_, ?_, ?_, ?_, ?_⟩
  · intro a b cs ha hb
    have hab : (a.isDigit && b.isDigit) = true := by rw [ha, hb]; rfl
    simp only [scanToks, if_pos hab]
  · intro cs
    rfl
  · intro c cs h
    rw [scanToks.eq_3 c cs (fun _ _ _ hc _ => ne_lbracket_of_isDigit h hc),
      if_neg (ne_X_of_isDigit h), if_pos h]
  · intro c cs h1 h2 h3
    rw [scanToks.eq_3 c cs (fun _ _ _ hc _ => h1 hc), if_neg h2,
      if_neg (by rw [h3]; exact Bool.false_ne_true)]
  · intro a b cs hab
    have h : ¬((a.isDigit && b.isDigit) = true) := by
      rw [hab]
      exact Bool.false_ne_true
    simp only [scanToks, if_neg h]
  · intro d
    simp only [tokSet, pyRange]
    rw [show d + 1 - d = 1 by omega]
    rfl
  · intro d
    simp only [tokSet]
    rw [mem_pyRange]
    omega
  · intro a b d
    simp only [tokSet]
    rw [mem_pyRange]
    omega

theorem c4_tokenization_witness :
    scanToks ('[' :: '2' :: '-' :: '5' :: ']' :: ['%'])
      = Tok.rng 2 5 :: scanToks ['%']
  ∧ scanToks ('7' :: ['X']) = Tok.lit 7 :: scanToks ['X']
  ∧ scanToks ('%' :: ['3']) = scanToks ['3'] :=
  ⟨c4_tokenization.1 '2' '5' ['%'] (by decide) (by decide),
   c4_tokenization.2.2.1 '7' ['X'] (by decide),
   c4_tokenization.2.2.2.1 '%' ['3'] (by decide) (by decide) (by decide)⟩

/-- Claim C5: every yielded string has exactly one character per
recognized token, and each character is the decimal digit chosen for that
position, in pattern order. -/
theorem c5_length_and_digits (tn : String) (s : String) (hs : s ∈ expand_tn tn) :
    s.length = (scanToks tn.toList).length
  ∧ ∃ x ∈ cartProd (ranges tn), s = strOfDigits x
      ∧ s.data = x.map (fun d => Char.ofNat (48 + d)) := by
  rw [expand_tn] at hs
  rcases List.mem_map.mp hs with ⟨x, hx, rfl⟩
  have hf := mem_cartProd.mp hx
  have hlt : ∀ d ∈ x, d < 10 := by
    intro d hd
    rcases forall₂_mem_left hf d hd with ⟨r, hr, hdr⟩
    exact ranges_lt_ten tn r hr d hdr
  refine ⟨?_, x, hx, rfl, strOfDigits_data hlt⟩
  rw [strOfDigits_length hlt, hf.length_eq, ranges, List.length_map]

theorem c5_witness :
    ("10" : String).length = (scanToks "1X".toList).length
  ∧ ∃ x ∈ cartProd (ranges "1X"), ("10" : String) = strOfDigits x
      ∧ ("10" : String).data = x.map (fun d => Char.ofNat (48 + d)) :=
  c5_length_and_digits "1X" "10" (by decide)

/-- Claim C6: a pattern with zero recognizable tokens (the empty pattern
included) expands to the single empty string, with no error. -/
theorem c6_no_tokens (tn : String) (h : scanToks tn.toList = []) :
    expand_tn tn = [""] := by
  rw [expand_tn, ranges, h]
  rfl

theorem c6_witness :
    scanToks "+-".toList = [] ∧ expand_tn "+-" = [""] :=
  ⟨by decide, c6_no_tokens "+-" (by decide)⟩

/-- Claim C7: `expand_tn` is a pure, deterministic function of the
pattern: two generator objects made from equal patterns yield identical
ordered sequences, namely the expansion list itself. -/
theorem c7_pure_deterministic (tn₁ tn₂ : String) (h : tn₁ = tn₂) :
    genOutputs (mkGen tn₁) = genOutputs (mkGen tn₂)
  ∧ genOutputs (mkGen tn₁) = expand_tn tn₁ := by
  subst h
  exact ⟨rfl, by rw [mkGen, genOutputs_mk, expand_tn]⟩

theorem c7_witness :
    genOutputs (mkGen "1X") = genOutputs (mkGen "1X")
  ∧ genOutputs (mkGen "1X") = expand_tn "1X" :=
  c7_pure_deterministic "1X" "1X" rfl

/-- Claim C8, settled against the code: for the IPv6 address
`2001:db8::1` given as a string and the IPv6 network `2001:db8::/32`, the
two versions match and the address lies inside the network — the same
operands as objects return `True` — yet `ip_in_range` returns `None`,
because `ip_version` yields an `IPv6Network` whose `prefixlen` 128 is
compared against the IPv4-specific constant 32, so the string is never
turned into an address object. -/
theorem c8_ipv6_string_returns_none :
    ip_in_range (PyVal.str (IPStr.v6s (dbAddr + 1) 128))
        (PyVal.str (IPStr.v6s dbAddr 32)) = Except.ok none
  ∧ ip_in_range (PyVal.addr6 (dbAddr + 1)) (PyVal.net6 dbAddr 32)
      = Except.ok (some true) := by
  constructor <;> rfl

/-- Claim C9: `expand_tn` raises no exception on any input: the fallible
rendering of the tokenization loop (with Python `int` conversions that can
fail) always succeeds, and the enumeration is a finite list whose length
is the product of the token cardinalities. -/
theorem c9_no_exception (tn : String) :
    scanToksE tn.toList = some (scanToks tn.toList)
  ∧ (expand_tn tn).length = ((scanToks tn.toList).map tokCard).prod :=
  ⟨scanToksE_eq_some tn.toList, expand_tn_length tn⟩

/-- Claim C10: a pattern containing an inverted bracketed range `[a-b]`
with `a > b` gets an empty digit-set at that position, so the whole
expansion yields no strings at all, without error. -/
theorem c10_inverted_range (tn : String) (a b : Nat)
    (hmem : Tok.rng a b ∈ scanToks tn.toList) (hab : b < a) :
    expand_tn tn = [] := by
  have hset : tokSet (Tok.rng a b) = [] := by
    simp only [tokSet, pyRange]
    rw [show b + 1 - a = 0 by omega]
    rfl
  have hnil : [] ∈ ranges tn := by
    rw [ranges]
    exact hset ▸ List.mem_map_of_mem tokSet hmem
  rw [expand_tn, cartProd_eq_nil hnil]
  rfl

theorem c10_witness : expand_tn "1[5-2]3" = [] :=
  c10_inverted_range "1[5-2]3" 5 2 (by decide) (by decide)

end HUtils
